import Mathlib

/-!
Verification model of the `observe-sequence` Meteor package
(`packages/observe-sequence/observe_sequence.js`).

The development shallowly embeds the package's reconciliation logic:

* the ordered diff engine (`LocalCollection._diffQueryOrderedChanges` from
  the `minimongo` package, which is not part of this repository's sources;
  it is modelled from the specification, see `diffOps` below);
* `diffArray`, which translates diff-engine callbacks into the public
  callback shape and unconditionally fires `changed` for keys present in
  both snapshots;
* the `observe` autorun body, modelled as a state-transition function
  `runComp` over an explicit session state and a world of cursors;
* the transition's interaction with cursor read positions, observe
  handles, the `initial`-batch suppression flag, and `stop()`.

JavaScript `undefined`/absent values are modelled with `Option`; the
ambient unique-id generator (`Random.id()`) is modelled as a counter
producing `MKey.fresh` keys, which are distinct from all document-derived
`MKey.given` keys by construction (the generator's contract is that ids
are globally unique).  The `minimongo` package is assumed present
(`Package.minimongo` in the source).
-/

/-- Keys of snapshot entries: either taken from an item's `_id` field
(`given`) or freshly generated by the unique-id generator (`fresh`).  The
two constructors are disjoint, modelling global uniqueness of generated
ids. -/
inductive MKey (K : Type) where
  | given (k : K)
  | fresh (n : Nat)
deriving DecidableEq, Repr

/-- An element of an observed array (or a document): a payload together
with an optional (present and truthy) `_id` field. -/
structure JsItem (K V : Type) where
  idField : Option K
  val : V
deriving DecidableEq, Repr

instance {K V : Type} [Inhabited V] : Inhabited (JsItem K V) := ⟨⟨none, default⟩⟩

/-- A snapshot entry `{_id, item}` as built by `observe` (elements of
`lastSeqArray` / `seqArray`). -/
structure SeqEntry (K V : Type) where
  key : MKey K
  item : JsItem K V
deriving DecidableEq, Repr

/-- A public callback invocation, in the argument order the source passes.
For `changed`, `arg2` and `arg3` are literally the second and third
arguments the code supplies (their old/new roles differ between the
`diffArray` path and the native-cursor path, which is the subject of one
of the claims). -/
inductive SeqEvent (K V : Type) where
  | addedAt (id : MKey K) (item : JsItem K V) (atIndex : Nat) (before : Option (MKey K))
  | changed (id : MKey K) (arg2 arg3 : JsItem K V)
  | removed (id : MKey K) (oldItem : JsItem K V)
  | movedTo (id : MKey K) (item : JsItem K V) (fromIndex toIndex : Nat) (before : Option (MKey K))
deriving DecidableEq, Repr

/-! ## The ordered diff engine

Modelled from the spec: `LocalCollection._diffQueryOrderedChanges` lives in
the `minimongo` package, outside this repository's sources.  Following
§4.2 of the specification: first `removed` is emitted for every old key
absent from the new keys; then the new keys are walked in order, keeping
the keys that are in order relative to the previously kept key (a one-pass
increasing-old-index scan), emitting `addedBefore` for keys new to the
snapshot and `movedBefore` for keys that are out of their expected
relative order, both with the next kept (already correctly positioned)
key as the before-key (`none` when no such key follows, i.e. the group is
anchored at the end).  Tie-breaking between equally small move sets is
not fixed by the specification's algorithm description; this model uses
the greedy in-order choice. -/

/-- One operation of the diff engine's edit script. -/
inductive DiffOp (α : Type) where
  | removed (k : α)
  | addedBefore (k : α) (before : Option α)
  | movedBefore (k : α) (before : Option α)
deriving DecidableEq, Repr

/-- First index of `k` in a list (`old_index_of_id` in the diff engine). -/
def firstIdx {α : Type} [DecidableEq α] : List α → α → Option Nat
  | [], _ => none
  | x :: xs, k => if x = k then some 0 else (firstIdx xs k).map (· + 1)

/-- Is the candidate old index beyond the last kept old index? -/
def optLt : Option Nat → Nat → Bool
  | none, _ => true
  | some j, i => decide (j < i)

/-- Greedy scan of the new keys keeping keys whose old indices are
strictly increasing ("already correctly positioned"). -/
def keptGo {α : Type} [DecidableEq α] (old : List α) : List α → Option Nat → List α
  | [], _ => []
  | k :: rest, last =>
    match firstIdx old k with
    | none => keptGo old rest last
    | some i =>
      if optLt last i then k :: keptGo old rest (some i) else keptGo old rest last

/-- The keys of the new snapshot that the diff engine leaves unmoved. -/
def keptKeys {α : Type} [DecidableEq α] (old new : List α) : List α :=
  keptGo old new none

/-- Walk of the new keys emitting `addedBefore`/`movedBefore` operations;
the before-key is the next kept key (the anchor of the current group). -/
def walkOps {α : Type} [DecidableEq α] (old kept : List α) : List α → List (DiffOp α)
  | [] => []
  | k :: rest =>
    let b := rest.find? (fun x => decide (x ∈ kept))
    if k ∈ kept then walkOps old kept rest
    else if k ∈ old then DiffOp.movedBefore k b :: walkOps old kept rest
    else DiffOp.addedBefore k b :: walkOps old kept rest

/-- The full edit script of the diff engine: removals of the old keys
absent from the new keys (in old order), then the walk of the new keys. -/
def diffOps {α : Type} [DecidableEq α] (old new : List α) : List (DiffOp α) :=
  (old.filter (fun k => !decide (k ∈ new))).map DiffOp.removed
    ++ walkOps old (keptKeys old new) new

/-! ## Applying an edit script (the spec's emission-order semantics) -/

/-- Insert `k` immediately before the first occurrence of `b` (at the end
if `b` does not occur). -/
def insertBeforeKey {α : Type} [DecidableEq α] : List α → α → α → List α
  | [], k, _ => [k]
  | x :: xs, k, b => if x = b then k :: x :: xs else x :: insertBeforeKey xs k b

/-- Insert `k` before the given key, or at the end when the before-key is
`none`. -/
def insertBefore {α : Type} [DecidableEq α] (l : List α) (k : α) : Option α → List α
  | none => l ++ [k]
  | some b => insertBeforeKey l k b

/-- Apply one edit-script operation to a key sequence. -/
def applyOp {α : Type} [DecidableEq α] (l : List α) : DiffOp α → List α
  | DiffOp.removed k => l.erase k
  | DiffOp.addedBefore k b => insertBefore l k b
  | DiffOp.movedBefore k b => insertBefore (l.erase k) k b

/-- Apply an edit script in emission order. -/
def applyOps {α : Type} [DecidableEq α] (l : List α) (ops : List (DiffOp α)) : List α :=
  ops.foldl applyOp l

/-! ## `diffArray` (from the source)

`diffArray(lastSeqArray, seqArray, callbacks)` collects the `_id` fields,
builds the `posOld`/`posNew` position maps (later occurrences overwrite
earlier positions, iteration order is first-insertion order), feeds the
id lists to the diff engine translating `addedBefore`/`movedBefore`/
`removed` into `addedAt`/`movedTo`/`removed`, and afterwards fires
`changed(id, lastSeqArray[posOld[id]].item, seqArray[posNew[id]].item)`
for every id present in both maps. -/

/-- Index of the last occurrence of `k` (the value stored in the
`posOld`/`posNew` objects after all overwrites). -/
def lastIdxOf {α : Type} [DecidableEq α] : List α → α → Option Nat
  | [], _ => none
  | x :: xs, k =>
    match lastIdxOf xs k with
    | some i => some (i + 1)
    | none => if x = k then some 0 else none

/-- The item stored at index `i` of a snapshot (`arr[i].item`); indexing a
JavaScript array out of range is modelled by the default item. -/
def itemAtD {K V : Type} [Inhabited V] (arr : List (SeqEntry K V)) (i : Nat) : JsItem K V :=
  ((arr.get? i).map SeqEntry.item).getD default

/-- Iteration order over a JavaScript object keyed by ids: unique ids in
first-insertion order. -/
def dedupF {α : Type} [DecidableEq α] (seen : List α) : List α → List α
  | [] => []
  | k :: rest => if k ∈ seen then dedupF seen rest else k :: dedupF (k :: seen) rest

/-- Translation of one diff-engine callback into the public callback
shape, exactly as `diffArray` does. -/
def translateOp {K V : Type} [DecidableEq K] [Inhabited V]
    (lastSeqArray seqArray : List (SeqEntry K V)) (op : DiffOp (MKey K)) : SeqEvent K V :=
  match op with
  | DiffOp.addedBefore k b =>
    let p := (lastIdxOf (seqArray.map SeqEntry.key) k).getD 0
    SeqEvent.addedAt k (itemAtD seqArray p) p b
  | DiffOp.movedBefore k b =>
    let pNew := (lastIdxOf (seqArray.map SeqEntry.key) k).getD 0
    let pOld := (lastIdxOf (lastSeqArray.map SeqEntry.key) k).getD 0
    SeqEvent.movedTo k (itemAtD seqArray pNew) pOld pNew b
  | DiffOp.removed k =>
    let pOld := (lastIdxOf (lastSeqArray.map SeqEntry.key) k).getD 0
    SeqEvent.removed k (itemAtD lastSeqArray pOld)

/-- The `changed` events fired after the diff: for every id of `posNew`
also present in `posOld`, `changed(id, lastSeqArray[posOld[id]].item,
seqArray[posNew[id]].item)` — the second argument is the old item and the
third the new item, exactly as the source passes them. -/
def changedEvents {K V : Type} [DecidableEq K] [Inhabited V]
    (lastSeqArray seqArray : List (SeqEntry K V)) : List (SeqEvent K V) :=
  (dedupF [] (seqArray.map SeqEntry.key)).filterMap (fun k =>
    if k ∈ lastSeqArray.map SeqEntry.key then
      some (SeqEvent.changed k
        (itemAtD lastSeqArray ((lastIdxOf (lastSeqArray.map SeqEntry.key) k).getD 0))
        (itemAtD seqArray ((lastIdxOf (seqArray.map SeqEntry.key) k).getD 0)))
    else none)

/-- All callback invocations of one `diffArray(lastSeqArray, seqArray, _)`
call, in emission order. -/
def diffArray {K V : Type} [DecidableEq K] [Inhabited V]
    (lastSeqArray seqArray : List (SeqEntry K V)) : List (SeqEvent K V) :=
  (diffOps (lastSeqArray.map SeqEntry.key) (seqArray.map SeqEntry.key)).map
      (translateOp lastSeqArray seqArray)
    ++ changedEvents lastSeqArray seqArray

/-! ## The observation session (`ObserveSequence.observe`) -/

/-- The value of the sequence expression on one run: falsy, an array, a
cursor (identified by the cursor object's identity), or anything else. -/
inductive SeqExprVal (K V : Type) where
  | nullV
  | arrV (items : List (JsItem K V))
  | cursorV (c : Nat)
  | otherV
deriving DecidableEq, Repr

/-- State of one minimongo cursor: its documents and its internal read
position.  Modelled from the spec: the live collection is an external
collaborator; `fetch` consumes from the current position, `rewind`
resets the position to the start (the source's comments "so that we can
fetch" / "so that the user can still fetch" document exactly this
consuming behaviour). -/
structure CursorSt (K V : Type) where
  docs : List (K × V)
  pos : Nat
deriving DecidableEq, Repr

/-- The world of cursors, keyed by cursor identity. -/
abbrev World (K V : Type) : Type := List (Nat × CursorSt K V)

/-- Look a cursor up in the world. -/
def lookupC {K V : Type} (w : World K V) (c : Nat) : CursorSt K V :=
  ((w.find? (fun p => decide (p.1 = c))).map Prod.snd).getD ⟨[], 0⟩

/-- Replace a cursor's state in the world. -/
def setC {K V : Type} (w : World K V) (c : Nat) (cs : CursorSt K V) : World K V :=
  w.map (fun p => if p.1 = c then (c, cs) else p)

/-- `cursor.rewind()`. -/
def cursorRewind {K V : Type} (cs : CursorSt K V) : CursorSt K V :=
  { cs with pos := 0 }

/-- `cursor.fetch()`: returns the documents from the current read
position on and leaves the position at the end. -/
def cursorFetch {K V : Type} (cs : CursorSt K V) : List (K × V) × CursorSt K V :=
  (cs.docs.drop cs.pos, { cs with pos := cs.docs.length })

/-- The source's non-reactive full traversal:
`rewind(); fetch(); rewind()`. -/
def traverseCursor {K V : Type} (cs : CursorSt K V) : List (K × V) × CursorSt K V :=
  let cs1 := cursorRewind cs
  let fetched := cursorFetch cs1
  (fetched.1, cursorRewind fetched.2)

/-- Map fetched documents to snapshot entries
(`{_id: doc._id, item: doc}`). -/
def mapDocs {K V : Type} (docs : List (K × V)) : List (SeqEntry K V) :=
  docs.map (fun d => ⟨MKey.given d.1, ⟨some d.1, d.2⟩⟩)

/-- Materialize an array value: each element keeps its `_id` when present
(and truthy), otherwise receives the next generated unique key
(`doc._id || Random.id()`); returns the entries and the advanced
generator counter. -/
def materializeArray {K V : Type} (items : List (JsItem K V)) (c : Nat) :
    List (SeqEntry K V) × Nat :=
  match items with
  | [] => ([], c)
  | it :: rest =>
    match it.idField with
    | some k =>
      let r := materializeArray rest c
      (⟨MKey.given k, it⟩ :: r.1, r.2)
    | none =>
      let r := materializeArray rest (c + 1)
      (⟨MKey.fresh c, it⟩ :: r.1, r.2)

/-- A native incremental event of a cursor's `observe` feed. -/
inductive NativeEvent (K V : Type) where
  | addedAt (doc : K × V) (atIndex : Nat) (before : Option K)
  | changed (newDoc oldDoc : K × V)
  | removed (oldDoc : K × V)
  | movedTo (doc : K × V) (fromIndex toIndex : Nat) (before : Option K)
deriving DecidableEq, Repr

/-- Translation of a native cursor event into the public callbacks, as
performed by the callbacks `observe` registers on the cursor: `addedAt`
is forwarded only when the `initial` flag is off (suppressing the
duplicate delivery of the initial batch); the other kinds are always
forwarded.  The native `changed` passes `(newDocument, oldDocument)`. -/
def nativeToEvents {K V : Type} (initial : Bool) : NativeEvent K V → List (SeqEvent K V)
  | NativeEvent.addedAt d i b =>
    if initial then [] else [SeqEvent.addedAt (MKey.given d.1) ⟨some d.1, d.2⟩ i (b.map MKey.given)]
  | NativeEvent.changed nd od =>
    [SeqEvent.changed (MKey.given nd.1) ⟨some nd.1, nd.2⟩ ⟨some od.1, od.2⟩]
  | NativeEvent.removed od =>
    [SeqEvent.removed (MKey.given od.1) ⟨some od.1, od.2⟩]
  | NativeEvent.movedTo d f t b =>
    [SeqEvent.movedTo (MKey.given d.1) ⟨some d.1, d.2⟩ f t (b.map MKey.given)]

/-- Modelled from the spec: a freshly attached native feed synchronously
announces the documents already in the collection as its own initial
notification (one `addedAt` per existing document, delivered while the
`initial` flag is still set). -/
def initialNativeAdds {K V : Type} (docs : List (K × V)) : List (NativeEvent K V) :=
  docs.enum.map (fun p => NativeEvent.addedAt p.2 p.1 none)

/-- The session state captured by the closure of `observe`:
`lastSeq`, `lastSeqArray` (`none` models JavaScript `undefined`),
`activeObserveHandle` (by handle id), the set of handles on which
`stop()` has been called, the handle allocator, the unique-id generator
counter, and whether `computation.stop()` has been called. -/
structure ObsState (K V : Type) where
  lastSeq : SeqExprVal K V
  lastSeqArray : Option (List (SeqEntry K V))
  activeHandle : Option Nat
  stoppedHandles : List Nat
  nextHandle : Nat
  nextFresh : Nat
  compStopped : Bool
deriving DecidableEq, Repr

/-- The state right after `observe` is called, before the first run:
`lastSeq = null`, `lastSeqArray = []`, no active handle. -/
def initObsState {K V : Type} : ObsState K V :=
  ⟨SeqExprVal.nullV, some [], none, [], 0, 0, false⟩

/-- The error thrown for unrecognized sequence types. -/
inductive RunError where
  | unsupportedSequenceType
deriving DecidableEq, Repr

/-- Result of one execution of the autorun body: the session state, the
world, the public callback invocations in order, and the error, if the
run threw. -/
structure RunOut (K V : Type) where
  st : ObsState K V
  w : World K V
  events : List (SeqEvent K V)
  error : Option RunError
deriving DecidableEq, Repr

/-- Phase 1 of the autorun body: if the previous sequence was a cursor,
non-reactively re-fetch its contents into `lastSeqArray`
(`rewind(); fetch(); rewind()`). -/
def refetchLast {K V : Type} (st : ObsState K V) (w : World K V) :
    ObsState K V × World K V :=
  match st.lastSeq with
  | SeqExprVal.cursorV c =>
    let r := traverseCursor (lookupC w c)
    ({ st with lastSeqArray := some (mapDocs r.1) }, setC w c r.2)
  | _ => (st, w)

/-- One execution of the `Deps.autorun` body of `observe`, for the given
current value `sv` of the sequence expression.  Mirrors the source:
phase 1 re-fetches a previous cursor; then the value is classified as
falsy / array / cursor / other; a cursor identical to `lastSeq` is a
no-op that leaves `seqArray` (hence `lastSeqArray`) `undefined`; a fresh
cursor is fetched, diffed against `lastSeqArray`, the previously active
handle is stopped, and a new handle is registered whose initial batch is
suppressed by the `initial` flag; an unrecognized value throws before
any event is emitted and before `lastSeq`/`lastSeqArray` are updated. -/
def runComp {K V : Type} [DecidableEq K] [DecidableEq V] [Inhabited V]
    (st0 : ObsState K V) (w0 : World K V) (sv : SeqExprVal K V) : RunOut K V :=
  let pre := refetchLast st0 w0
  let st := pre.1
  let w := pre.2
  match sv with
  | SeqExprVal.nullV =>
    let seqArray : List (SeqEntry K V) := []
    let evs := diffArray (st.lastSeqArray.getD []) seqArray
    ⟨{ st with lastSeq := sv, lastSeqArray := some seqArray }, w, evs, none⟩
  | SeqExprVal.arrV items =>
    let m := materializeArray items st.nextFresh
    let evs := diffArray (st.lastSeqArray.getD []) m.1
    ⟨{ st with lastSeq := sv, lastSeqArray := some m.1, nextFresh := m.2 }, w, evs, none⟩
  | SeqExprVal.cursorV c =>
    if st.lastSeq = SeqExprVal.cursorV c then
      ⟨{ st with lastSeq := sv, lastSeqArray := none }, w, [], none⟩
    else
      let r := traverseCursor (lookupC w c)
      let w1 := setC w c r.2
      let seqArray := mapDocs r.1
      let evs := diffArray (st.lastSeqArray.getD []) seqArray
      let stopped :=
        match st.activeHandle with
        | some h => h :: st.stoppedHandles
        | none => st.stoppedHandles
      let h := st.nextHandle
      let initEvs := (initialNativeAdds r.1).flatMap (nativeToEvents true)
      let st' := { st with lastSeq := sv, lastSeqArray := some seqArray,
                           activeHandle := some h, stoppedHandles := stopped,
                           nextHandle := h + 1 }
      ⟨st', w1, evs ++ initEvs, none⟩
  | SeqExprVal.otherV =>
    ⟨st, w, [], some RunError.unsupportedSequenceType⟩

/-- Delivery of a native cursor event through an observe handle: the
registered callbacks of any handle that has been created and not stopped
forward the event (with the `initial` flag off); a stopped handle fires
nothing.  Note that delivery does not consult `compStopped`: stopping
the computation does not stop the handles. -/
def deliverNative {K V : Type} (st : ObsState K V) (h : Nat) (ev : NativeEvent K V) :
    List (SeqEvent K V) :=
  if h < st.nextHandle ∧ h ∉ st.stoppedHandles then nativeToEvents false ev else []

/-- The `stop` function returned by `observe`: it stops the computation
(`computation.stop()`) and nothing else. -/
def stopSession {K V : Type} (st : ObsState K V) : ObsState K V :=
  { st with compStopped := true }

/-- A reactive trigger: a stopped computation never re-runs (no events,
no state change); otherwise the autorun body executes. -/
def reactiveTrigger {K V : Type} [DecidableEq K] [DecidableEq V] [Inhabited V]
    (st : ObsState K V) (w : World K V) (sv : SeqExprVal K V) : RunOut K V :=
  if st.compStopped then ⟨st, w, [], none⟩ else runComp st w sv

/-! ## Event counting helpers -/

/-- Number of `addedAt` invocations for a given key. -/
def countAdded {K V : Type} [DecidableEq K] (k : MKey K) : List (SeqEvent K V) → Nat
  | [] => 0
  | SeqEvent.addedAt id _ _ _ :: t => (if id = k then 1 else 0) + countAdded k t
  | _ :: t => countAdded k t

/-- Number of `removed` invocations for a given key. -/
def countRemoved {K V : Type} [DecidableEq K] (k : MKey K) : List (SeqEvent K V) → Nat
  | [] => 0
  | SeqEvent.removed id _ :: t => (if id = k then 1 else 0) + countRemoved k t
  | _ :: t => countRemoved k t

/-- Number of `changed` invocations for a given key. -/
def countChanged {K V : Type} [DecidableEq K] (k : MKey K) : List (SeqEvent K V) → Nat
  | [] => 0
  | SeqEvent.changed id _ _ :: t => (if id = k then 1 else 0) + countChanged k t
  | _ :: t => countChanged k t

/-- Number of `movedTo` invocations for a given key. -/
def countMoved {K V : Type} [DecidableEq K] (k : MKey K) : List (SeqEvent K V) → Nat
  | [] => 0
  | SeqEvent.movedTo id _ _ _ _ :: t => (if id = k then 1 else 0) + countMoved k t
  | _ :: t => countMoved k t

/-- Number of `addedAt` invocations of any key. -/
def countAddedAll {K V : Type} (evs : List (SeqEvent K V)) : Nat :=
  evs.countP (fun e => match e with | SeqEvent.addedAt _ _ _ _ => true | _ => false)

/-! ## World lemmas -/

theorem lookupC_cons {K V : Type} (q : Nat × CursorSt K V) (t : World K V) (c : Nat) :
    lookupC (q :: t) c = if q.1 = c then q.2 else lookupC t c := by
  by_cases hq : q.1 = c <;> simp [lookupC, List.find?, hq]

theorem setC_cons {K V : Type} (q : Nat × CursorSt K V) (t : World K V) (c : Nat)
    (cs : CursorSt K V) :
    setC (q :: t) c cs = (if q.1 = c then (c, cs) else q) :: setC t c cs := rfl

theorem lookupC_setC_pos0 {K V : Type} (w : World K V) (c : Nat) (cs : CursorSt K V)
    (h : cs.pos = 0) : (lookupC (setC w c cs) c).pos = 0 := by
  induction w with
  | nil => simp [lookupC, setC]
  | cons p t ih =>
    rw [setC_cons]
    by_cases hp : p.1 = c
    · rw [if_pos hp, lookupC_cons, if_pos rfl, h]
    · rw [if_neg hp, lookupC_cons, if_neg hp]
      exact ih

theorem lookupC_setC_ne {K V : Type} (w : World K V) (c c' : Nat) (cs : CursorSt K V)
    (h : c' ≠ c) : lookupC (setC w c' cs) c = lookupC w c := by
  induction w with
  | nil => simp [lookupC, setC]
  | cons p t ih =>
    rw [setC_cons]
    by_cases hp : p.1 = c'
    · rw [if_pos hp, lookupC_cons, if_neg h, lookupC_cons, if_neg (hp ▸ h), ih]
    · rw [if_neg hp, lookupC_cons, lookupC_cons, ih]

theorem traverseCursor_pos {K V : Type} (cs : CursorSt K V) :
    (traverseCursor cs).2.pos = 0 := rfl

/-! ## Concrete example sessions used by the scenario claims -/

/-- A world holding one cursor (identity 0) with two documents and read
position at the start. -/
def exWorld : World Nat Nat := [(0, ⟨[(1, 10), (2, 20)], 0⟩)]

/-- The first run of a fresh session whose sequence expression evaluates
to the cursor of `exWorld`: it attaches to the cursor. -/
def exRun1 : RunOut Nat Nat := runComp initObsState exWorld (SeqExprVal.cursorV 0)

/-- A session attached to cursor 0 (observe handle 0 active). -/
def exStC : ObsState Nat Nat :=
  { lastSeq := SeqExprVal.cursorV 0, lastSeqArray := some [], activeHandle := some 0,
    stoppedHandles := [], nextHandle := 1, nextFresh := 0, compStopped := false }

/-- A world whose single cursor has been half-consumed by its owner: the
read position is 1, not 0. -/
def exWorldPos1 : World Nat Nat := [(0, ⟨[(1, 10)], 1⟩)]

/-! ## Claim theorems (scenario and session claims) -/

/-- C1: the claim states that for every key present in both snapshots the
changed callback receives `(key, newItem, oldItem)`.  The code instead
passes `(key, oldItem, newItem)`: diffing the snapshot `[{_id: 1, item:
10}]` against `[{_id: 1, item: 20}]` fires `changed(1, 10-item, 20-item)`
— the second argument is the item of the OLD snapshot.  This contradicts
the file's own header documentation (`changed(id, newItem, oldItem)`) and
the argument order used by the native-cursor path of the same file. -/
theorem C1_changed_argument_order :
    diffArray (K := Nat) (V := Nat)
        [⟨MKey.given 1, ⟨some 1, 10⟩⟩] [⟨MKey.given 1, ⟨some 1, 20⟩⟩]
      = [SeqEvent.changed (MKey.given 1) ⟨some 1, 10⟩ ⟨some 1, 20⟩] := by
  decide

/-- C2: the claim states that after `stop()` no callback of any kind fires
on any subsequent native or reactive trigger.  In the code `stop()` only
calls `computation.stop()` and never stops `activeObserveHandle`:
after attaching to a cursor and stopping the session, a reactive trigger
indeed produces no events and a second `stop()` is a no-op, but a native
`addedAt` on the still-active observe handle is forwarded to the
consumer's callbacks — the live subscription is not detached. -/
theorem C2_native_callbacks_after_stop :
    reactiveTrigger (stopSession exRun1.st) exRun1.w (SeqExprVal.cursorV 0)
      = ⟨stopSession exRun1.st, exRun1.w, [], none⟩ ∧
    deliverNative (stopSession exRun1.st) 0 (NativeEvent.addedAt (3, 30) 2 none)
      = [SeqEvent.addedAt (MKey.given 3) ⟨some 3, 30⟩ 2 none] ∧
    stopSession (stopSession exRun1.st) = stopSession exRun1.st := by
  refine ⟨?_, ?_, ?_⟩ <;> decide

/-- C3: the claim states that on every run whose sequence value
classifies as Empty or List while a live subscription is active, that
subscription is detached during that run.  In the code only the
fresh-cursor branch stops `activeObserveHandle`; the falsy and array
branches leave it untouched: after attaching to a cursor and then
re-running with a falsy sequence value, the handle is still not stopped
and still forwards native events. -/
theorem C3_empty_run_keeps_subscription :
    (runComp exRun1.st exRun1.w SeqExprVal.nullV).st.stoppedHandles = [] ∧
    (runComp exRun1.st exRun1.w SeqExprVal.nullV).st.activeHandle = some 0 ∧
    deliverNative (runComp exRun1.st exRun1.w SeqExprVal.nullV).st 0
        (NativeEvent.addedAt (3, 30) 2 none)
      = [SeqEvent.addedAt (MKey.given 3) ⟨some 3, 30⟩ 2 none] := by
  refine ⟨?_, ?_, ?_⟩ <;> decide

/-- C6: attaching a session with an empty previous snapshot to a live
collection already holding two items fires exactly two `addedAt`
callbacks in total, although the native feed announces the same two
documents in its initial notification (two native adds, suppressed by
the `initial` flag). -/
theorem C6_no_duplicate_initial_delivery :
    countAddedAll exRun1.events = 2 ∧
    (initialNativeAdds (lookupC exWorld 0).docs).length = 2 := by
  decide

/-- C7 counterexample: the claim states that the read position that
existed before a materializing traversal is saved and restored.  With the
owner's read position at 1, a run that re-fetches the previous cursor
leaves the position at 0, not 1. -/
theorem C7_position_not_restored_cex :
    (lookupC exWorldPos1 0).pos = 1 ∧
    (lookupC (runComp exStC exWorldPos1 SeqExprVal.nullV).w 0).pos = 0 := by
  decide

/-- C7 amended: every non-reactive full traversal performed during
materialization (the re-fetch of the previous cursor at the start of a
run, and the fetch of a freshly attached cursor) rewinds the cursor
before fetching and rewinds it again afterwards, so the collection's
read position afterwards is the start (0) — the owner can fetch the full
contents again, but a nonzero pre-existing position is not preserved. -/
theorem C7_traversal_rewinds (st : ObsState Nat Nat) (w : World Nat Nat) (c : Nat)
    (sv : SeqExprVal Nat Nat) :
    (st.lastSeq = SeqExprVal.cursorV c → (lookupC (runComp st w sv).w c).pos = 0) ∧
    (sv = SeqExprVal.cursorV c → st.lastSeq ≠ sv → (lookupC (runComp st w sv).w c).pos = 0) := by
  constructor
  · intro h
    have h1 : (lookupC (refetchLast st w).2 c).pos = 0 := by
      simp only [refetchLast, h]
      exact lookupC_setC_pos0 _ _ _ rfl
    cases sv with
    | nullV => simpa only [runComp] using h1
    | arrV items => simpa only [runComp] using h1
    | otherV => simpa only [runComp] using h1
    | cursorV c' =>
      by_cases hc : c = c'
      · subst hc
        have h2 : (refetchLast st w).1.lastSeq = SeqExprVal.cursorV (K := Nat) (V := Nat) c := by
          simp [refetchLast, h]
        simpa only [runComp, h2, if_pos] using h1
      · have h2 : (refetchLast st w).1.lastSeq = SeqExprVal.cursorV (K := Nat) (V := Nat) c := by
          simp [refetchLast, h]
        have hne : ¬ ((refetchLast st w).1.lastSeq
            = SeqExprVal.cursorV (K := Nat) (V := Nat) c') := by
          rw [h2]; simp [hc]
        simp only [runComp, if_neg hne]
        rw [lookupC_setC_ne _ _ _ _ (Ne.symm hc)]
        exact h1
  · intro hsv hne
    subst hsv
    have h2 : (refetchLast st w).1.lastSeq = st.lastSeq := by
      cases hls : st.lastSeq <;> simp [refetchLast, hls]
    have hne2 : ¬ ((refetchLast st w).1.lastSeq = SeqExprVal.cursorV (K := Nat) (V := Nat) c) := by
      rw [h2]; exact hne
    simp only [runComp, if_neg hne2]
    exact lookupC_setC_pos0 _ _ _ rfl

/-- Witness for C7 amended: concrete evaluation of the first traversal
site (re-fetch of the previous cursor) at a session attached to cursor 0
with the owner's read position at 1. -/
theorem C7_traversal_rewinds_witness :
    exStC.lastSeq = SeqExprVal.cursorV 0 ∧
    (lookupC (runComp exStC exWorldPos1 SeqExprVal.nullV).w 0).pos = 0 :=
  ⟨rfl, (C7_traversal_rewinds exStC exWorldPos1 0 SeqExprVal.nullV).1 rfl⟩

/-- C8: a sequence value that is neither falsy, nor an array, nor a
recognized cursor makes the run throw (`UnsupportedSequenceType`), and
that run emits zero callbacks of any kind. -/
theorem C8_unsupported_sequence_type (st : ObsState Nat Nat) (w : World Nat Nat) :
    (runComp st w SeqExprVal.otherV).error = some RunError.unsupportedSequenceType ∧
    (runComp st w SeqExprVal.otherV).events = [] :=
  ⟨rfl, rfl⟩

/-- C10: a recomputation whose sequence value is the same cursor handle
as on the previous run emits no events, throws no error, neither stops
nor replaces the active observe handle, allocates no new handle, and
leaves native delivery exactly as before (the existing subscription keeps
delivering incremental events directly). -/
theorem C10_same_cursor_noop (st : ObsState Nat Nat) (w : World Nat Nat) (c : Nat)
    (h : st.lastSeq = SeqExprVal.cursorV c) :
    (runComp st w (SeqExprVal.cursorV c)).events = [] ∧
    (runComp st w (SeqExprVal.cursorV c)).error = none ∧
    (runComp st w (SeqExprVal.cursorV c)).st.activeHandle = st.activeHandle ∧
    (runComp st w (SeqExprVal.cursorV c)).st.stoppedHandles = st.stoppedHandles ∧
    (runComp st w (SeqExprVal.cursorV c)).st.nextHandle = st.nextHandle ∧
    ∀ (h' : Nat) (ev : NativeEvent Nat Nat),
      deliverNative (runComp st w (SeqExprVal.cursorV c)).st h' ev = deliverNative st h' ev := by
  have h2 : (refetchLast st w).1.lastSeq = SeqExprVal.cursorV (K := Nat) (V := Nat) c := by
    simp [refetchLast, h]
  have hfields : (refetchLast st w).1.activeHandle = st.activeHandle ∧
      (refetchLast st w).1.stoppedHandles = st.stoppedHandles ∧
      (refetchLast st w).1.nextHandle = st.nextHandle := by
    simp [refetchLast, h]
  simp only [runComp, if_pos h2]
  simp [deliverNative, hfields.1, hfields.2.1, hfields.2.2]

/-- Witness for C10: the session attached to cursor 0 re-runs with the
same cursor and emits nothing while keeping its handle. -/
theorem C10_same_cursor_noop_witness :
    exStC.lastSeq = SeqExprVal.cursorV 0 ∧
    ((runComp exStC exWorld (SeqExprVal.cursorV 0)).events = [] ∧
     (runComp exStC exWorld (SeqExprVal.cursorV 0)).error = none ∧
     (runComp exStC exWorld (SeqExprVal.cursorV 0)).st.activeHandle = exStC.activeHandle ∧
     (runComp exStC exWorld (SeqExprVal.cursorV 0)).st.stoppedHandles = exStC.stoppedHandles ∧
     (runComp exStC exWorld (SeqExprVal.cursorV 0)).st.nextHandle = exStC.nextHandle ∧
     ∀ (h' : Nat) (ev : NativeEvent Nat Nat),
       deliverNative (runComp exStC exWorld (SeqExprVal.cursorV 0)).st h' ev
         = deliverNative exStC h' ev) :=
  ⟨rfl, C10_same_cursor_noop exStC exWorld 0 rfl⟩

/-! ## C9: keys of a materialized array -/

/-- Number of items without an identity field (each consumes one
generated id). -/
def countKeyless {K V : Type} (items : List (JsItem K V)) : Nat :=
  items.countP (fun it => it.idField.isNone)

/-- The key an item receives when the generator counter stands at `n`. -/
def keyFor {K V : Type} (it : JsItem K V) (n : Nat) : MKey K :=
  match it.idField with
  | some k => MKey.given k
  | none => MKey.fresh n

/-- The generator counters of all freshly generated keys of a snapshot. -/
def freshIdxs {K V : Type} (es : List (SeqEntry K V)) : List Nat :=
  es.filterMap (fun e => match e.key with | MKey.fresh n => some n | _ => none)

theorem materializeArray_length {K V : Type} (items : List (JsItem K V)) (c : Nat) :
    (materializeArray items c).1.length = items.length := by
  induction items generalizing c with
  | nil => rfl
  | cons it rest ih =>
    cases h : it.idField <;> simp [materializeArray, h, ih]

theorem countKeyless_cons {K V : Type} (it : JsItem K V) (l : List (JsItem K V)) :
    countKeyless (it :: l) = (if it.idField.isNone then 1 else 0) + countKeyless l := by
  cases h : it.idField <;> simp [countKeyless, List.countP_cons, h, Nat.add_comm]

theorem materializeArray_getElem? {K V : Type} (items : List (JsItem K V)) (c i : Nat) :
    (materializeArray items c).1[i]?
      = (items[i]?).map
          (fun it => ⟨keyFor it (c + countKeyless (items.take i)), it⟩) := by
  induction items generalizing c i with
  | nil => simp [materializeArray]
  | cons it rest ih =>
    cases i with
    | zero =>
      cases h : it.idField <;> simp [materializeArray, h, keyFor, countKeyless]
    | succ i =>
      cases h : it.idField with
      | some k => simp [materializeArray, h, countKeyless_cons, ih]
      | none => simp [materializeArray, h, countKeyless_cons, ih, Nat.add_assoc]

theorem freshIdxs_ge {K V : Type} (items : List (JsItem K V)) (c : Nat) :
    ∀ n ∈ freshIdxs (materializeArray items c).1, c ≤ n := by
  induction items generalizing c with
  | nil => simp [materializeArray, freshIdxs]
  | cons it rest ih =>
    cases h : it.idField with
    | some k =>
      simpa [materializeArray, h, freshIdxs] using ih c
    | none =>
      intro n hn
      simp only [materializeArray, h, freshIdxs, List.filterMap_cons] at hn
      rcases List.mem_cons.mp hn with h0 | h0
      · omega
      · have := ih (c + 1) n h0
        omega

theorem freshIdxs_nodup {K V : Type} (items : List (JsItem K V)) (c : Nat) :
    (freshIdxs (materializeArray items c).1).Nodup := by
  induction items generalizing c with
  | nil => simp [materializeArray, freshIdxs]
  | cons it rest ih =>
    cases h : it.idField with
    | some k => simpa [materializeArray, h, freshIdxs] using ih c
    | none =>
      simp only [materializeArray, h, freshIdxs, List.filterMap_cons, List.nodup_cons]
      refine ⟨fun hmem => ?_, ih (c + 1)⟩
      have := freshIdxs_ge rest (c + 1) c hmem
      omega

/-- C9: materializing a List-classified sequence keeps the length, gives
every item with a present identity field exactly that field as its key
(and only those items), gives every keyless item the next freshly
generated key (the counter plus the number of keyless items before it),
and the generated keys are pairwise distinct, at-or-beyond the current
counter, and — being `MKey.fresh` — distinct from every identity-derived
`MKey.given` key. -/
theorem C9_materialize_keys {K V : Type} (items : List (JsItem K V)) (c : Nat) :
    ((materializeArray items c).1.length = items.length) ∧
    (∀ (i : Nat) (it : JsItem K V) (k : K), items[i]? = some it → it.idField = some k →
        ((materializeArray items c).1[i]?).map SeqEntry.key = some (MKey.given k)) ∧
    (∀ (i : Nat) (it : JsItem K V), items[i]? = some it → it.idField = none →
        ((materializeArray items c).1[i]?).map SeqEntry.key
          = some (MKey.fresh (c + countKeyless (items.take i)))) ∧
    (∀ (i : Nat) (it : JsItem K V) (k : K), items[i]? = some it →
        ((materializeArray items c).1[i]?).map SeqEntry.key = some (MKey.given k) →
        it.idField = some k) ∧
    (∀ n ∈ freshIdxs (materializeArray items c).1, c ≤ n) ∧
    (freshIdxs (materializeArray items c).1).Nodup := by
  refine ⟨materializeArray_length items c, ?_, ?_, ?_, freshIdxs_ge items c,
    freshIdxs_nodup items c⟩
  · intro i it k hit hk
    rw [materializeArray_getElem?, hit]
    simp [keyFor, hk]
  · intro i it hit hk
    rw [materializeArray_getElem?, hit]
    simp [keyFor, hk]
  · intro i it k hit hkey
    rw [materializeArray_getElem?, hit] at hkey
    cases h : it.idField with
    | some k' => simp [keyFor, h] at hkey; simpa [h] using congrArg MKey.given hkey
    | none => simp [keyFor, h] at hkey

/-- The array `[{_id: 5, item: 1}, {item: 2}, {item: 3}]` used to witness
C9. -/
def exItems : List (JsItem Nat Nat) := [⟨some 5, 1⟩, ⟨none, 2⟩, ⟨none, 3⟩]

/-- Witness for C9: the keyed item keeps `_id = 5`; the two keyless items
receive the generated keys 0 and 1. -/
theorem C9_materialize_keys_witness :
    ((materializeArray exItems 0).1[0]?).map SeqEntry.key = some (MKey.given 5) ∧
    ((materializeArray exItems 0).1[1]?).map SeqEntry.key = some (MKey.fresh 0) ∧
    ((materializeArray exItems 0).1[2]?).map SeqEntry.key = some (MKey.fresh 1) :=
  ⟨(C9_materialize_keys exItems 0).2.1 0 ⟨some 5, 1⟩ 5 rfl rfl,
   (C9_materialize_keys exItems 0).2.2.1 1 ⟨none, 2⟩ rfl rfl,
   (C9_materialize_keys exItems 0).2.2.1 2 ⟨none, 3⟩ rfl rfl⟩

/-! ## C5: coverage of one diff-and-change run -/

/-- Number of `addedBefore` operations for a given key. -/
def countOpAdded {α : Type} [DecidableEq α] (k : α) : List (DiffOp α) → Nat
  | [] => 0
  | DiffOp.addedBefore x _ :: t => (if x = k then 1 else 0) + countOpAdded k t
  | _ :: t => countOpAdded k t

/-- Number of `movedBefore` operations for a given key. -/
def countOpMoved {α : Type} [DecidableEq α] (k : α) : List (DiffOp α) → Nat
  | [] => 0
  | DiffOp.movedBefore x _ :: t => (if x = k then 1 else 0) + countOpMoved k t
  | _ :: t => countOpMoved k t

/-- Number of `removed` operations for a given key. -/
def countOpRemoved {α : Type} [DecidableEq α] (k : α) : List (DiffOp α) → Nat
  | [] => 0
  | DiffOp.removed x :: t => (if x = k then 1 else 0) + countOpRemoved k t
  | _ :: t => countOpRemoved k t

theorem walk_countOpAdded {α : Type} [DecidableEq α] (old K : List α)
    (hK : ∀ x ∈ K, x ∈ old) :
    ∀ (s : List α), s.Nodup → ∀ k,
      countOpAdded k (walkOps old K s) = if k ∈ s ∧ k ∉ old then 1 else 0 := by
  intro s
  induction s with
  | nil => intro _ k; simp [walkOps, countOpAdded]
  | cons x rest ih =>
    intro hnd k
    have hnd' : rest.Nodup := (List.nodup_cons.mp hnd).2
    have hxr : x ∉ rest := (List.nodup_cons.mp hnd).1
    by_cases hxK : x ∈ K
    · rw [walkOps, if_pos hxK, ih hnd' k]
      by_cases hxk : k = x
      · subst hxk
        have hko := hK k hxK
        simp [hxr, hko]
      · simp [List.mem_cons, hxk]
    · by_cases hxo : x ∈ old
      · rw [walkOps, if_neg hxK, if_pos hxo]
        rw [show countOpAdded k (DiffOp.movedBefore x _ :: walkOps old K rest)
              = countOpAdded k (walkOps old K rest) from rfl, ih hnd' k]
        by_cases hxk : k = x
        · subst hxk; simp [hxr, hxo]
        · simp [List.mem_cons, hxk]
      · rw [walkOps, if_neg hxK, if_neg hxo]
        rw [show countOpAdded k (DiffOp.addedBefore x _ :: walkOps old K rest)
              = (if x = k then 1 else 0) + countOpAdded k (walkOps old K rest) from rfl,
            ih hnd' k]
        by_cases hxk : k = x
        · subst hxk; simp [hxr, hxo]
        · simp [List.mem_cons, hxk, fun h => hxk (Eq.symm h), Ne.symm hxk]

theorem walk_countOpRemoved {α : Type} [DecidableEq α] (old K : List α) :
    ∀ (s : List α) (k : α), countOpRemoved k (walkOps old K s) = 0 := by
  intro s
  induction s with
  | nil => intro k; simp [walkOps, countOpRemoved]
  | cons x rest ih =>
    intro k
    by_cases hxK : x ∈ K
    · rw [walkOps, if_pos hxK]; exact ih k
    · by_cases hxo : x ∈ old
      · rw [walkOps, if_neg hxK, if_pos hxo]
        exact ih k
      · rw [walkOps, if_neg hxK, if_neg hxo]
        exact ih k

theorem walk_countOpMoved {α : Type} [DecidableEq α] (old K : List α) :
    ∀ (s : List α), s.Nodup → ∀ k,
      countOpMoved k (walkOps old K s) ≤ if k ∈ s ∧ k ∈ old then 1 else 0 := by
  intro s
  induction s with
  | nil => intro _ k; simp [walkOps, countOpMoved]
  | cons x rest ih =>
    intro hnd k
    have hnd' : rest.Nodup := (List.nodup_cons.mp hnd).2
    have hxr : x ∉ rest := (List.nodup_cons.mp hnd).1
    have hmono : (if k ∈ rest ∧ k ∈ old then 1 else 0)
        ≤ (if k ∈ x :: rest ∧ k ∈ old then (1 : Nat) else 0) := by
      by_cases h1 : k ∈ rest ∧ k ∈ old
      · simp [h1, List.mem_cons, h1.1, h1.2]
      · simp [h1]
    by_cases hxK : x ∈ K
    · rw [walkOps, if_pos hxK]
      exact le_trans (ih hnd' k) hmono
    · by_cases hxo : x ∈ old
      · rw [walkOps, if_neg hxK, if_pos hxo]
        rw [show countOpMoved k (DiffOp.movedBefore x _ :: walkOps old K rest)
              = (if x = k then 1 else 0) + countOpMoved k (walkOps old K rest) from rfl]
        by_cases hxk : x = k
        · subst hxk
          have h0 : countOpMoved x (walkOps old K rest) ≤ 0 := by
            have := ih hnd' x
            simpa [hxr] using this
          simp [hxo]
          omega
        · simp only [if_neg hxk, Nat.zero_add]
          exact le_trans (ih hnd' k) hmono
      · rw [walkOps, if_neg hxK, if_neg hxo]
        rw [show countOpMoved k (DiffOp.addedBefore x _ :: walkOps old K rest)
              = countOpMoved k (walkOps old K rest) from rfl]
        exact le_trans (ih hnd' k) hmono

theorem countAdded_append {K V : Type} [DecidableEq K] (k : MKey K)
    (a b : List (SeqEvent K V)) : countAdded k (a ++ b) = countAdded k a + countAdded k b := by
  induction a with
  | nil => simp [countAdded]
  | cons e t ih => cases e <;> simp [countAdded, ih] <;> omega

theorem countRemoved_append {K V : Type} [DecidableEq K] (k : MKey K)
    (a b : List (SeqEvent K V)) :
    countRemoved k (a ++ b) = countRemoved k a + countRemoved k b := by
  induction a with
  | nil => simp [countRemoved]
  | cons e t ih => cases e <;> simp [countRemoved, ih] <;> omega

theorem countChanged_append {K V : Type} [DecidableEq K] (k : MKey K)
    (a b : List (SeqEvent K V)) :
    countChanged k (a ++ b) = countChanged k a + countChanged k b := by
  induction a with
  | nil => simp [countChanged]
  | cons e t ih => cases e <;> simp [countChanged, ih] <;> omega

theorem countMoved_append {K V : Type} [DecidableEq K] (k : MKey K)
    (a b : List (SeqEvent K V)) : countMoved k (a ++ b) = countMoved k a + countMoved k b := by
  induction a with
  | nil => simp [countMoved]
  | cons e t ih => cases e <;> simp [countMoved, ih] <;> omega

theorem countAdded_map_translate {K V : Type} [DecidableEq K] [DecidableEq V] [Inhabited V]
    (la sa : List (SeqEntry K V)) (ops : List (DiffOp (MKey K))) (k : MKey K) :
    countAdded k (ops.map (translateOp la sa)) = countOpAdded k ops := by
  induction ops with
  | nil => rfl
  | cons op t ih => cases op <;> simp [translateOp, countAdded, countOpAdded, ih]

theorem countRemoved_map_translate {K V : Type} [DecidableEq K] [DecidableEq V] [Inhabited V]
    (la sa : List (SeqEntry K V)) (ops : List (DiffOp (MKey K))) (k : MKey K) :
    countRemoved k (ops.map (translateOp la sa)) = countOpRemoved k ops := by
  induction ops with
  | nil => rfl
  | cons op t ih => cases op <;> simp [translateOp, countRemoved, countOpRemoved, ih]

theorem countMoved_map_translate {K V : Type} [DecidableEq K] [DecidableEq V] [Inhabited V]
    (la sa : List (SeqEntry K V)) (ops : List (DiffOp (MKey K))) (k : MKey K) :
    countMoved k (ops.map (translateOp la sa)) = countOpMoved k ops := by
  induction ops with
  | nil => rfl
  | cons op t ih => cases op <;> simp [translateOp, countMoved, countOpMoved, ih]

theorem countChanged_map_translate {K V : Type} [DecidableEq K] [DecidableEq V] [Inhabited V]
    (la sa : List (SeqEntry K V)) (ops : List (DiffOp (MKey K))) (k : MKey K) :
    countChanged k (ops.map (translateOp la sa)) = 0 := by
  induction ops with
  | nil => rfl
  | cons op t ih => cases op <;> simp [translateOp, countChanged, ih]

theorem firstIdx_decomp {α : Type} [DecidableEq α] :
    ∀ (l : List α) (k : α) (i : Nat), firstIdx l k = some i →
      ∃ l1 l2, l = l1 ++ k :: l2 ∧ l1.length = i := by
  intro l
  induction l with
  | nil => intro k i h; simp [firstIdx] at h
  | cons x xs ih =>
    intro k i h
    by_cases hx : x = k
    · subst hx
      rw [firstIdx, if_pos rfl] at h
      refine ⟨[], xs, by simp, ?_⟩
      simpa using h
    · rw [firstIdx, if_neg hx] at h
      cases hj : firstIdx xs k with
      | none => rw [hj] at h; simp at h
      | some j =>
        rw [hj] at h
        simp at h
        obtain ⟨l1, l2, he, hl⟩ := ih k j hj
        exact ⟨x :: l1, l2, by simp [he], by simp [hl, ← h]⟩

theorem firstIdx_mem {α : Type} [DecidableEq α] (l : List α) (k : α) (i : Nat)
    (h : firstIdx l k = some i) : k ∈ l := by
  obtain ⟨l1, l2, he, _⟩ := firstIdx_decomp l k i h
  simp [he]

theorem keptGo_subset_old {α : Type} [DecidableEq α] (old : List α) :
    ∀ (s : List α) (last : Option Nat) (x : α), x ∈ keptGo old s last → x ∈ old := by
  intro s
  induction s with
  | nil => intro last x h; simp [keptGo] at h
  | cons y rest ih =>
    intro last x h
    rw [keptGo] at h
    cases hf : firstIdx old y with
    | none => rw [hf] at h; exact ih last x h
    | some i =>
      rw [hf] at h
      have h' : x ∈ (if optLt last i = true then y :: keptGo old rest (some i)
          else keptGo old rest last) := h
      by_cases ho : optLt last i
      · rw [if_pos ho] at h'
        rcases List.mem_cons.mp h' with h1 | h1
        · subst h1; exact firstIdx_mem old x i hf
        · exact ih (some i) x h1
      · rw [if_neg ho] at h'
        exact ih last x h'

theorem countOpRemoved_map_removed {α : Type} [DecidableEq α] (L : List α) (k : α) :
    countOpRemoved k (L.map DiffOp.removed) = L.countP (fun x => decide (x = k)) := by
  induction L with
  | nil => rfl
  | cons x t ih =>
    by_cases hx : x = k <;> simp [countOpRemoved, List.countP_cons, ih, hx] <;> omega

theorem countOpAdded_map_removed {α : Type} [DecidableEq α] (L : List α) (k : α) :
    countOpAdded k (L.map DiffOp.removed) = 0 := by
  induction L with
  | nil => rfl
  | cons x t ih => simpa [countOpAdded] using ih

theorem countOpMoved_map_removed {α : Type} [DecidableEq α] (L : List α) (k : α) :
    countOpMoved k (L.map DiffOp.removed) = 0 := by
  induction L with
  | nil => rfl
  | cons x t ih => simpa [countOpMoved] using ih

theorem countP_eq_key_of_nodup {α : Type} [DecidableEq α] (M : List α) (hM : M.Nodup) (k : α) :
    M.countP (fun x => decide (x = k)) = if k ∈ M then 1 else 0 := by
  induction M with
  | nil => simp
  | cons x t ih =>
    have hnd := List.nodup_cons.mp hM
    by_cases hx : x = k
    · subst hx
      have : t.countP (fun y => decide (y = x)) = 0 := by
        rw [List.countP_eq_zero]
        intro a ha
        simp only [decide_eq_true_eq]
        intro he; exact hnd.1 (he ▸ ha)
      simp [List.countP_cons, this]
    · rw [List.countP_cons]
      simp only [decide_eq_true_eq, if_neg hx]
      rw [ih hnd.2]
      simp [List.mem_cons, Ne.symm hx, hx]

theorem countOpAdded_append {α : Type} [DecidableEq α] (k : α) (a b : List (DiffOp α)) :
    countOpAdded k (a ++ b) = countOpAdded k a + countOpAdded k b := by
  induction a with
  | nil => simp [countOpAdded]
  | cons op t ih => cases op <;> simp [countOpAdded, ih] <;> omega

theorem countOpMoved_append {α : Type} [DecidableEq α] (k : α) (a b : List (DiffOp α)) :
    countOpMoved k (a ++ b) = countOpMoved k a + countOpMoved k b := by
  induction a with
  | nil => simp [countOpMoved]
  | cons op t ih => cases op <;> simp [countOpMoved, ih] <;> omega

theorem countOpRemoved_append {α : Type} [DecidableEq α] (k : α) (a b : List (DiffOp α)) :
    countOpRemoved k (a ++ b) = countOpRemoved k a + countOpRemoved k b := by
  induction a with
  | nil => simp [countOpRemoved]
  | cons op t ih => cases op <;> simp [countOpRemoved, ih] <;> omega

theorem dedupF_eq_filter {α : Type} [DecidableEq α] :
    ∀ (l : List α), l.Nodup → ∀ (seen : List α),
      dedupF seen l = l.filter (fun x => !decide (x ∈ seen)) := by
  intro l
  induction l with
  | nil => intro _ seen; rfl
  | cons x t ih =>
    intro hnd seen
    have hx : x ∉ t := (List.nodup_cons.mp hnd).1
    have ht : t.Nodup := (List.nodup_cons.mp hnd).2
    by_cases hs : x ∈ seen
    · rw [dedupF, if_pos hs, ih ht seen]
      simp [List.filter_cons, hs]
    · rw [dedupF, if_neg hs, ih ht (x :: seen)]
      have heq : t.filter (fun y => !decide (y ∈ x :: seen))
          = t.filter (fun y => !decide (y ∈ seen)) := by
        apply List.filter_congr
        intro y hy
        have : y ≠ x := fun he => hx (he ▸ hy)
        simp [List.mem_cons, this]
      rw [heq]
      simp [List.filter_cons, hs]

theorem dedupF_nil_eq {α : Type} [DecidableEq α] (l : List α) (hnd : l.Nodup) :
    dedupF [] l = l := by
  rw [dedupF_eq_filter l hnd []]
  simp

theorem changedEvents_counts {K V : Type} [DecidableEq K] [DecidableEq V] [Inhabited V]
    (la sa : List (SeqEntry K V)) (k : MKey K) :
    ∀ (L : List (MKey K)), L.Nodup →
      countChanged k (L.filterMap (fun x =>
          if x ∈ la.map SeqEntry.key then
            some (SeqEvent.changed x
              (itemAtD la ((lastIdxOf (la.map SeqEntry.key) x).getD 0))
              (itemAtD sa ((lastIdxOf (sa.map SeqEntry.key) x).getD 0)))
          else none))
        = if k ∈ L ∧ k ∈ la.map SeqEntry.key then 1 else 0 := by
  intro L
  induction L with
  | nil => intro _; simp [countChanged]
  | cons x t ih =>
    intro hnd
    have hx : x ∉ t := (List.nodup_cons.mp hnd).1
    have ht : t.Nodup := (List.nodup_cons.mp hnd).2
    rw [List.filterMap_cons]
    by_cases hmem : x ∈ la.map SeqEntry.key
    · rw [if_pos hmem]
      rw [show countChanged k (SeqEvent.changed x _ _ :: _) =
          (if x = k then 1 else 0) + countChanged k (t.filterMap _) from rfl]
      rw [ih ht]
      by_cases hxk : x = k
      · subst hxk
        simp [hx, hmem]
      · simp [List.mem_cons, hxk, Ne.symm hxk]
    · rw [if_neg hmem, ih ht]
      by_cases hxk : x = k
      · subst hxk
        simp [hmem]
      · simp [List.mem_cons, Ne.symm hxk]

theorem countAdded_filterMap_changed {K V : Type} [DecidableEq K] [DecidableEq V] [Inhabited V]
    (la sa : List (SeqEntry K V)) (k : MKey K) (L : List (MKey K)) :
    countAdded k (L.filterMap (fun x =>
        if x ∈ la.map SeqEntry.key then
          some (SeqEvent.changed x
            (itemAtD la ((lastIdxOf (la.map SeqEntry.key) x).getD 0))
            (itemAtD sa ((lastIdxOf (sa.map SeqEntry.key) x).getD 0)))
        else none)) = 0 := by
  induction L with
  | nil => rfl
  | cons x t ih =>
    rw [List.filterMap_cons]
    by_cases hmem : x ∈ la.map SeqEntry.key
    · rw [if_pos hmem]
      exact ih
    · rw [if_neg hmem]
      exact ih

theorem countRemoved_filterMap_changed {K V : Type} [DecidableEq K] [DecidableEq V] [Inhabited V]
    (la sa : List (SeqEntry K V)) (k : MKey K) (L : List (MKey K)) :
    countRemoved k (L.filterMap (fun x =>
        if x ∈ la.map SeqEntry.key then
          some (SeqEvent.changed x
            (itemAtD la ((lastIdxOf (la.map SeqEntry.key) x).getD 0))
            (itemAtD sa ((lastIdxOf (sa.map SeqEntry.key) x).getD 0)))
        else none)) = 0 := by
  induction L with
  | nil => rfl
  | cons x t ih =>
    rw [List.filterMap_cons]
    by_cases hmem : x ∈ la.map SeqEntry.key
    · rw [if_pos hmem]
      exact ih
    · rw [if_neg hmem]
      exact ih

theorem countMoved_filterMap_changed {K V : Type} [DecidableEq K] [DecidableEq V] [Inhabited V]
    (la sa : List (SeqEntry K V)) (k : MKey K) (L : List (MKey K)) :
    countMoved k (L.filterMap (fun x =>
        if x ∈ la.map SeqEntry.key then
          some (SeqEvent.changed x
            (itemAtD la ((lastIdxOf (la.map SeqEntry.key) x).getD 0))
            (itemAtD sa ((lastIdxOf (sa.map SeqEntry.key) x).getD 0)))
        else none)) = 0 := by
  induction L with
  | nil => rfl
  | cons x t ih =>
    rw [List.filterMap_cons]
    by_cases hmem : x ∈ la.map SeqEntry.key
    · rw [if_pos hmem]
      exact ih
    · rw [if_neg hmem]
      exact ih

/-- C5: for snapshots with unique keys, one `diffArray` run fires, for
every key `k`: exactly one `addedAt` iff `k` is new-only (else zero),
exactly one `removed` iff `k` is old-only (else zero), exactly one
`changed` iff `k` is common (else zero), and at most one `movedTo`, only
possible for common keys.  Since this holds for every key and the event
type has exactly the four public callback kinds, no other callbacks
fire. -/
theorem C5_diff_coverage {K V : Type} [DecidableEq K] [DecidableEq V] [Inhabited V]
    (lastArr newArr : List (SeqEntry K V))
    (h1 : (lastArr.map SeqEntry.key).Nodup) (h2 : (newArr.map SeqEntry.key).Nodup)
    (k : MKey K) :
    countAdded k (diffArray lastArr newArr)
       = (if k ∈ newArr.map SeqEntry.key ∧ k ∉ lastArr.map SeqEntry.key then 1 else 0) ∧
    countRemoved k (diffArray lastArr newArr)
       = (if k ∈ lastArr.map SeqEntry.key ∧ k ∉ newArr.map SeqEntry.key then 1 else 0) ∧
    countChanged k (diffArray lastArr newArr)
       = (if k ∈ lastArr.map SeqEntry.key ∧ k ∈ newArr.map SeqEntry.key then 1 else 0) ∧
    countMoved k (diffArray lastArr newArr)
       ≤ (if k ∈ lastArr.map SeqEntry.key ∧ k ∈ newArr.map SeqEntry.key then 1 else 0) := by
  have hK : ∀ x ∈ keptKeys (lastArr.map SeqEntry.key) (newArr.map SeqEntry.key),
      x ∈ lastArr.map SeqEntry.key := fun x hx =>
    keptGo_subset_old (lastArr.map SeqEntry.key) (newArr.map SeqEntry.key) none x hx
  have hchev : changedEvents lastArr newArr
      = (newArr.map SeqEntry.key).filterMap (fun x =>
          if x ∈ lastArr.map SeqEntry.key then
            some (SeqEvent.changed x
              (itemAtD lastArr ((lastIdxOf (lastArr.map SeqEntry.key) x).getD 0))
              (itemAtD newArr ((lastIdxOf (newArr.map SeqEntry.key) x).getD 0)))
          else none) := by
    rw [changedEvents, dedupF_nil_eq _ h2]
  refine ⟨?_, ?_, ?_, ?_⟩
  · rw [diffArray, countAdded_append, countAdded_map_translate, hchev,
      countAdded_filterMap_changed, diffOps, countOpAdded_append,
      countOpAdded_map_removed,
      walk_countOpAdded _ _ hK _ h2 k]
    omega
  · rw [diffArray, countRemoved_append, countRemoved_map_translate, hchev,
      countRemoved_filterMap_changed, diffOps, countOpRemoved_append,
      countOpRemoved_map_removed, walk_countOpRemoved,
      countP_eq_key_of_nodup _ (h1.filter _) k]
    simp [List.mem_filter]
  · rw [diffArray, countChanged_append, countChanged_map_translate, hchev,
      changedEvents_counts lastArr newArr k _ h2]
    by_cases hcm : k ∈ lastArr.map SeqEntry.key ∧ k ∈ newArr.map SeqEntry.key
    · simp [hcm.1, hcm.2]
    · by_cases hn : k ∈ newArr.map SeqEntry.key
      · have hnot : k ∉ lastArr.map SeqEntry.key := fun hc => hcm ⟨hc, hn⟩
        simp [hn, hnot]
      · simp [hn, fun hc => hcm]
  · rw [diffArray, countMoved_append, countMoved_map_translate, hchev,
      countMoved_filterMap_changed, diffOps, countOpMoved_append,
      countOpMoved_map_removed]
    have hw := walk_countOpMoved (lastArr.map SeqEntry.key)
      (keptKeys (lastArr.map SeqEntry.key) (newArr.map SeqEntry.key))
      (newArr.map SeqEntry.key) h2 k
    by_cases hcm : k ∈ newArr.map SeqEntry.key ∧ k ∈ lastArr.map SeqEntry.key
    · simp only [hcm.1, hcm.2, and_self, if_true] at hw ⊢
      omega
    · rw [if_neg hcm] at hw
      have hcm' : ¬(k ∈ lastArr.map SeqEntry.key ∧ k ∈ newArr.map SeqEntry.key) :=
        fun h => hcm ⟨h.2, h.1⟩
      rw [if_neg hcm']
      omega

/-- Witness for C5: old snapshot with keys `[1, 2, 3]` diffed against new
snapshot with keys `[2, 1, 4]`: key 3 is removed once, key 4 added once,
key 2 changed once and moved at most once. -/
theorem C5_diff_coverage_witness :
    (([⟨MKey.given 1, ⟨some 1, 10⟩⟩, ⟨MKey.given 2, ⟨some 2, 20⟩⟩,
       ⟨MKey.given 3, ⟨some 3, 30⟩⟩] : List (SeqEntry Nat Nat)).map SeqEntry.key).Nodup ∧
    (([⟨MKey.given 2, ⟨some 2, 21⟩⟩, ⟨MKey.given 1, ⟨some 1, 11⟩⟩,
       ⟨MKey.given 4, ⟨some 4, 40⟩⟩] : List (SeqEntry Nat Nat)).map SeqEntry.key).Nodup ∧
    (countChanged (MKey.given 2)
        (diffArray (K := Nat) (V := Nat)
          [⟨MKey.given 1, ⟨some 1, 10⟩⟩, ⟨MKey.given 2, ⟨some 2, 20⟩⟩,
           ⟨MKey.given 3, ⟨some 3, 30⟩⟩]
          [⟨MKey.given 2, ⟨some 2, 21⟩⟩, ⟨MKey.given 1, ⟨some 1, 11⟩⟩,
           ⟨MKey.given 4, ⟨some 4, 40⟩⟩])
      = if MKey.given 2 ∈ ([⟨MKey.given 1, ⟨some 1, 10⟩⟩, ⟨MKey.given 2, ⟨some 2, 20⟩⟩,
           ⟨MKey.given 3, ⟨some 3, 30⟩⟩] : List (SeqEntry Nat Nat)).map SeqEntry.key
          ∧ MKey.given 2 ∈ ([⟨MKey.given 2, ⟨some 2, 21⟩⟩, ⟨MKey.given 1, ⟨some 1, 11⟩⟩,
           ⟨MKey.given 4, ⟨some 4, 40⟩⟩] : List (SeqEntry Nat Nat)).map SeqEntry.key
        then 1 else 0) :=
  ⟨by decide, by decide,
    (C5_diff_coverage
      [⟨MKey.given 1, ⟨some 1, 10⟩⟩, ⟨MKey.given 2, ⟨some 2, 20⟩⟩,
       ⟨MKey.given 3, ⟨some 3, 30⟩⟩]
      [⟨MKey.given 2, ⟨some 2, 21⟩⟩, ⟨MKey.given 1, ⟨some 1, 11⟩⟩,
       ⟨MKey.given 4, ⟨some 4, 40⟩⟩]
      (by decide) (by decide) (MKey.given 2)).2.2.1⟩

/-! ## C4: the edit script transforms the old key order into the new one -/

theorem insertBeforeKey_perm {α : Type} [DecidableEq α] (l : List α) (k b : α) :
    List.Perm (insertBeforeKey l k b) (k :: l) := by
  induction l with
  | nil => exact List.Perm.refl _
  | cons x xs ih =>
    by_cases hx : x = b
    · rw [insertBeforeKey, if_pos hx]
    · rw [insertBeforeKey, if_neg hx]
      exact (List.Perm.cons x ih).trans (List.Perm.swap k x xs)

theorem insertBefore_perm {α : Type} [DecidableEq α] (l : List α) (k : α) (b : Option α) :
    List.Perm (insertBefore l k b) (k :: l) := by
  cases b with
  | none =>
    rw [insertBefore]
    exact List.perm_append_singleton k l
  | some b => exact insertBeforeKey_perm l k b

theorem insertBefore_nodup {α : Type} [DecidableEq α] (l : List α) (k : α) (b : Option α)
    (hl : l.Nodup) (hk : k ∉ l) : (insertBefore l k b).Nodup :=
  (insertBefore_perm l k b).nodup_iff.mpr (List.nodup_cons.mpr ⟨hk, hl⟩)

theorem insertBefore_mem {α : Type} [DecidableEq α] (l : List α) (k : α) (b : Option α)
    (x : α) : x ∈ insertBefore l k b ↔ x = k ∨ x ∈ l := by
  rw [(insertBefore_perm l k b).mem_iff]
  simp

theorem filter_insertBefore {α : Type} [DecidableEq α] (l : List α) (k : α) (b : Option α)
    (p : α → Bool) (hk : p k = true) (hb : ∀ bk, b = some bk → p bk = true) :
    (insertBefore l k b).filter p = insertBefore (l.filter p) k b := by
  cases b with
  | none => simp [insertBefore, List.filter_append, hk]
  | some bk =>
    have hpb : p bk = true := hb bk rfl
    rw [insertBefore, insertBefore]
    induction l with
    | nil => simp [insertBeforeKey, hk]
    | cons x xs ih =>
      by_cases hx : x = bk
      · rw [insertBeforeKey, if_pos hx]
        subst hx
        simp [List.filter_cons, hk, hpb, insertBeforeKey]
      · rw [insertBeforeKey, if_neg hx]
        by_cases hpx : p x = true
        · simp only [List.filter_cons, hpx, if_true]
          rw [insertBeforeKey, if_neg hx]
          rw [ih]
        · have hpx' : p x = false := Bool.eq_false_iff.mpr hpx
          simp [List.filter_cons, hpx', ih]

theorem insertBeforeKey_append_cons {α : Type} [DecidableEq α] (done t : List α) (k bk : α)
    (hbk : bk ∉ done) : insertBeforeKey (done ++ bk :: t) k bk = done ++ k :: bk :: t := by
  induction done with
  | nil => simp [insertBeforeKey]
  | cons d ds ih =>
    have hd : d ≠ bk := fun he => hbk (by simp [he])
    have hbk' : bk ∉ ds := fun hm => hbk (by simp [hm])
    rw [List.cons_append, insertBeforeKey, if_neg hd, ih hbk']
    simp

theorem find?_eq_head?_filter {α : Type} (l : List α) (p : α → Bool) :
    l.find? p = (l.filter p).head? := by
  induction l with
  | nil => rfl
  | cons x xs ih =>
    by_cases hx : p x = true
    · rw [List.find?_cons_of_pos _ hx, List.filter_cons_of_pos hx]
      rfl
    · have hx' : p x = false := Bool.eq_false_iff.mpr hx
      rw [List.find?_cons_of_neg _ (by simp [hx']), List.filter_cons_of_neg (by simp [hx']), ih]

theorem erase_filter_eq {α : Type} [DecidableEq α] (l : List α) (hl : l.Nodup) (k : α)
    (p p' : α → Bool) (hpk : p k = false)
    (hagree : ∀ x ∈ l, x ≠ k → p' x = p x) :
    (l.erase k).filter p' = l.filter p := by
  by_cases hk : k ∈ l
  · obtain ⟨s, t, rfl⟩ := List.append_of_mem hk
    have hnd := List.nodup_append.mp hl
    have hks : k ∉ s := fun hc => (hnd.2.2 hc) (List.mem_cons_self k t)
    have hkt : k ∉ t := (List.nodup_cons.mp hnd.2.1).1
    rw [List.erase_append_right _ hks, List.erase_cons_head]
    rw [List.filter_append, List.filter_append, List.filter_cons_of_neg (by simp [hpk])]
    have hs : s.filter p' = s.filter p := by
      apply List.filter_congr
      intro x hx
      exact hagree x (by simp [hx]) (fun he => hks (he ▸ hx))
    have ht : t.filter p' = t.filter p := by
      apply List.filter_congr
      intro x hx
      exact hagree x (by simp [hx]) (fun he => hkt (he ▸ hx))
    rw [hs, ht]
  · rw [List.erase_of_not_mem hk]
    apply List.filter_congr
    intro x hx
    exact hagree x hx (fun he => hk (he ▸ hx))

theorem keptGo_cons_none {α : Type} [DecidableEq α] {old : List α} {y : α} {rest : List α}
    {last : Option Nat} (h : firstIdx old y = none) :
    keptGo old (y :: rest) last = keptGo old rest last := by
  simp [keptGo, h]

theorem keptGo_cons_some {α : Type} [DecidableEq α] {old : List α} {y : α} {rest : List α}
    {last : Option Nat} {i : Nat} (h : firstIdx old y = some i) :
    keptGo old (y :: rest) last
      = if optLt last i then y :: keptGo old rest (some i) else keptGo old rest last := by
  simp [keptGo, h]

theorem sublist_filter_mem_eq {α : Type} [DecidableEq α] {Ks l : List α}
    (hs : List.Sublist Ks l) (hnd : l.Nodup) :
    l.filter (fun x => decide (x ∈ Ks)) = Ks := by
  induction hs with
  | slnil => rfl
  | @cons l1 l2 a h ih =>
    have hnd' := List.nodup_cons.mp hnd
    have ha : a ∉ l1 := fun hc => hnd'.1 (h.subset hc)
    rw [List.filter_cons_of_neg (by simp [ha]), ih hnd'.2]
  | @cons₂ l1 l2 a h ih =>
    have hnd' := List.nodup_cons.mp hnd
    rw [List.filter_cons_of_pos (by simp)]
    have hcg : l2.filter (fun x => decide (x ∈ a :: l1))
        = l2.filter (fun x => decide (x ∈ l1)) := by
      apply List.filter_congr
      intro x hx
      have hxa : x ≠ a := fun he => hnd'.1 (he ▸ hx)
      simp [List.mem_cons, hxa]
    rw [hcg, ih hnd'.2]

theorem keptGo_sublist_new {α : Type} [DecidableEq α] (old : List α) :
    ∀ (s : List α) (last : Option Nat), List.Sublist (keptGo old s last) s := by
  intro s
  induction s with
  | nil => intro last; simp [keptGo]
  | cons y rest ih =>
    intro last
    cases hf : firstIdx old y with
    | none =>
      rw [keptGo_cons_none hf]
      exact (ih last).cons y
    | some i =>
      rw [keptGo_cons_some hf]
      by_cases ho : optLt last i
      · rw [if_pos ho]
        exact (ih (some i)).cons₂ y
      · rw [if_neg ho]
        exact (ih last).cons y

/-- The part of the old key order that may still hold keys kept after the
last kept old index. -/
def dropAfter {α : Type} (old : List α) : Option Nat → List α
  | none => old
  | some j => old.drop (j + 1)

theorem drop_sublist_dropAfter {α : Type} (old : List α) (i : Nat) (last : Option Nat)
    (ho : optLt last i = true) : List.Sublist (old.drop i) (dropAfter old last) := by
  cases last with
  | none => exact List.drop_sublist i old
  | some j =>
    have hj : j < i := by simpa [optLt] using ho
    rw [dropAfter]
    have hdd : old.drop i = (old.drop (j + 1)).drop (i - (j + 1)) := by
      rw [List.drop_drop]
      congr 1
      omega
    rw [hdd]
    exact List.drop_sublist _ _

theorem keptGo_sublist_old {α : Type} [DecidableEq α] (old : List α) :
    ∀ (s : List α) (last : Option Nat),
      List.Sublist (keptGo old s last) (dropAfter old last) := by
  intro s
  induction s with
  | nil => intro last; simp [keptGo]
  | cons y rest ih =>
    intro last
    cases hf : firstIdx old y with
    | none => rw [keptGo_cons_none hf]; exact ih last
    | some i =>
      rw [keptGo_cons_some hf]
      by_cases ho : optLt last i
      · rw [if_pos ho]
        obtain ⟨l1, l2, he, hlen⟩ := firstIdx_decomp old y i hf
        have hdropi : old.drop i = y :: l2 := by
          rw [he, ← hlen]
          exact List.drop_left l1 (y :: l2)
        have hdropi1 : old.drop (i + 1) = l2 := by
          have he2 : old = (l1 ++ [y]) ++ l2 := by simp [he]
          rw [he2]
          have hlen2 : (l1 ++ [y]).length = i + 1 := by simp [hlen]
          rw [← hlen2]
          exact List.drop_left _ _
        have h2 : List.Sublist (keptGo old rest (some i)) l2 := by
          have hi := ih (some i)
          rwa [dropAfter, hdropi1] at hi
        exact ((h2.cons₂ y).trans (hdropi ▸ List.Sublist.refl (old.drop i))).trans
          (drop_sublist_dropAfter old i last ho)
      · rw [if_neg ho]
        exact ih last

theorem applyOps_removed_cons {α : Type} [DecidableEq α] (a : α) :
    ∀ (ks t : List α), (∀ k ∈ ks, k ≠ a) →
      applyOps (a :: t) (ks.map DiffOp.removed) = a :: applyOps t (ks.map DiffOp.removed) := by
  intro ks
  induction ks with
  | nil => intro t _; rfl
  | cons k ks ih =>
    intro t hks
    have hka : k ≠ a := hks k (List.mem_cons_self k ks)
    rw [List.map_cons]
    rw [show applyOps (a :: t) (DiffOp.removed k :: ks.map DiffOp.removed)
        = applyOps ((a :: t).erase k) (ks.map DiffOp.removed) from rfl]
    rw [List.erase_cons_tail (by simpa using fun he => hka he.symm)]
    rw [ih (t.erase k) (fun x hx => hks x (List.mem_cons_of_mem k hx))]
    rfl

theorem applyOps_removals {α : Type} [DecidableEq α] (l : List α) (hl : l.Nodup)
    (p : α → Bool) :
    applyOps l ((l.filter p).map DiffOp.removed) = l.filter (fun x => !p x) := by
  induction l with
  | nil => rfl
  | cons a t ih =>
    have hnd := List.nodup_cons.mp hl
    by_cases hp : p a = true
    · rw [List.filter_cons_of_pos hp, List.map_cons]
      rw [show applyOps (a :: t) (DiffOp.removed a :: (t.filter p).map DiffOp.removed)
          = applyOps ((a :: t).erase a) ((t.filter p).map DiffOp.removed) from rfl]
      rw [List.erase_cons_head, ih hnd.2, List.filter_cons_of_neg (by simp [hp])]
    · have hp' : p a = false := Bool.eq_false_iff.mpr hp
      rw [List.filter_cons_of_neg (by simp [hp'])]
      rw [applyOps_removed_cons a (t.filter p) t
        (fun k hk => fun he => hnd.1 (he ▸ (List.mem_of_mem_filter hk)))]
      rw [ih hnd.2, List.filter_cons_of_pos (by simp [hp'])]

theorem insertBefore_skeleton {α : Type} [DecidableEq α] (done restK : List α) (x : α)
    (hdisj : ∀ y ∈ restK, y ∉ done) :
    insertBefore (done ++ restK) x restK.head? = (done ++ [x]) ++ restK := by
  cases restK with
  | nil => simp [insertBefore]
  | cons bk t' =>
    rw [List.head?_cons]
    rw [show insertBefore (done ++ bk :: t') x (some bk)
        = insertBeforeKey (done ++ bk :: t') x bk from rfl]
    rw [insertBeforeKey_append_cons done t' x bk (hdisj bk (List.mem_cons_self bk t'))]
    simp

theorem walk_apply {α : Type} [DecidableEq α] (old K : List α) (hK : ∀ x ∈ K, x ∈ old) :
    ∀ (s done cur : List α),
      (done ++ s).Nodup →
      cur.Nodup →
      (∀ x ∈ cur, x ∈ old ∨ x ∈ done) →
      cur.filter (fun y => decide (y ∈ K) || !decide (y ∈ s))
        = done ++ s.filter (fun y => decide (y ∈ K)) →
      applyOps cur (walkOps old K s) = done ++ s := by
  intro s
  induction s with
  | nil =>
    intro done cur hnew hnd hsub hfilt
    rw [walkOps]
    show cur = done ++ []
    have hall : cur.filter (fun y => decide (y ∈ K) || !decide (y ∈ ([] : List α))) = cur := by
      apply List.filter_eq_self.mpr
      intro a _
      simp
    rw [← hall, hfilt]
    simp
  | cons x rest ih =>
    intro done cur hnew hnd hsub hfilt
    have hnds := List.nodup_append.mp hnew
    have hxrest : x ∉ rest := (List.nodup_cons.mp hnds.2.1).1
    have hxdone : x ∉ done := fun hc => hnds.2.2 hc (List.mem_cons_self x rest)
    have hnew' : ((done ++ [x]) ++ rest).Nodup := by
      rw [List.append_assoc, List.singleton_append]
      exact hnew
    have hrestdone : ∀ y ∈ rest, y ∉ done :=
      fun y hy hc => hnds.2.2 hc (List.mem_cons_of_mem x hy)
    have hagree : ∀ y ∈ cur, y ≠ x →
        (decide (y ∈ K) || !decide (y ∈ rest))
          = (decide (y ∈ K) || !decide (y ∈ x :: rest)) := by
      intro y _ hyx
      simp [List.mem_cons, hyx]
    by_cases hxK : x ∈ K
    · rw [walkOps, if_pos hxK]
      have hfilt' : cur.filter (fun y => decide (y ∈ K) || !decide (y ∈ rest))
          = (done ++ [x]) ++ rest.filter (fun y => decide (y ∈ K)) := by
        have hcg : cur.filter (fun y => decide (y ∈ K) || !decide (y ∈ rest))
            = cur.filter (fun y => decide (y ∈ K) || !decide (y ∈ x :: rest)) := by
          apply List.filter_congr
          intro y hy
          by_cases hyx : y = x
          · subst hyx; simp [hxK]
          · exact hagree y hy hyx
        rw [hcg, hfilt, List.filter_cons_of_pos (by simp [hxK])]
        simp
      have hres := ih (done ++ [x]) cur hnew' hnd
        (fun y hy => (hsub y hy).imp_right (fun hd => by simp [hd])) hfilt'
      rw [hres, List.append_assoc, List.singleton_append]
    · by_cases hxo : x ∈ old
      · rw [walkOps, if_neg hxK, if_pos hxo]
        rw [show applyOps cur (DiffOp.movedBefore x (rest.find? (fun y => decide (y ∈ K)))
              :: walkOps old K rest)
            = applyOps (insertBefore (cur.erase x) x (rest.find? (fun y => decide (y ∈ K))))
                (walkOps old K rest) from rfl]
        have hxecur : x ∉ cur.erase x := fun hc => by
          have hmem := (hnd.mem_erase_iff).mp hc
          exact hmem.1 rfl
        have hnd' : (insertBefore (cur.erase x) x
            (rest.find? (fun y => decide (y ∈ K)))).Nodup :=
          insertBefore_nodup _ _ _ (hnd.erase x) hxecur
        have hsub' : ∀ y ∈ insertBefore (cur.erase x) x (rest.find? (fun y => decide (y ∈ K))),
            y ∈ old ∨ y ∈ done ++ [x] := by
          intro y hy
          rcases (insertBefore_mem _ _ _ y).mp hy with rfl | hy'
          · exact Or.inl hxo
          · exact (hsub y (List.erase_subset x cur hy')).imp_right (fun hd => by simp [hd])
        have hfilt' : (insertBefore (cur.erase x) x
              (rest.find? (fun y => decide (y ∈ K)))).filter
                (fun y => decide (y ∈ K) || !decide (y ∈ rest))
            = (done ++ [x]) ++ rest.filter (fun y => decide (y ∈ K)) := by
          rw [filter_insertBefore _ _ _ _ (by simp [hxrest])
            (fun bk hbk => by
              have hfind := List.find?_some hbk
              simp only [decide_eq_true_eq] at hfind
              simp [hfind])]
          have hstep1 : (cur.erase x).filter (fun y => decide (y ∈ K) || !decide (y ∈ rest))
              = cur.filter (fun y => decide (y ∈ K) || !decide (y ∈ x :: rest)) := by
            apply erase_filter_eq cur hnd x _ _ (by simp [hxK])
            intro y hy hyx
            exact hagree y hy hyx
          rw [hstep1, hfilt, List.filter_cons_of_neg (by simp [hxK, hxrest])]
          rw [find?_eq_head?_filter]
          exact insertBefore_skeleton done _ x
            (fun y hy => hrestdone y (List.mem_of_mem_filter hy))
        have hres := ih (done ++ [x]) _ hnew' hnd' hsub' hfilt'
        rw [hres, List.append_assoc, List.singleton_append]
      · rw [walkOps, if_neg hxK, if_neg hxo]
        rw [show applyOps cur (DiffOp.addedBefore x (rest.find? (fun y => decide (y ∈ K)))
              :: walkOps old K rest)
            = applyOps (insertBefore cur x (rest.find? (fun y => decide (y ∈ K))))
                (walkOps old K rest) from rfl]
        have hxcur : x ∉ cur := by
          intro hc
          rcases hsub x hc with h1 | h1
          · exact hxo h1
          · exact hxdone h1
        have hnd' : (insertBefore cur x (rest.find? (fun y => decide (y ∈ K)))).Nodup :=
          insertBefore_nodup _ _ _ hnd hxcur
        have hsub' : ∀ y ∈ insertBefore cur x (rest.find? (fun y => decide (y ∈ K))),
            y ∈ old ∨ y ∈ done ++ [x] := by
          intro y hy
          rcases (insertBefore_mem _ _ _ y).mp hy with rfl | hy'
          · exact Or.inr (by simp)
          · exact (hsub y hy').imp_right (fun hd => by simp [hd])
        have hfilt' : (insertBefore cur x (rest.find? (fun y => decide (y ∈ K)))).filter
              (fun y => decide (y ∈ K) || !decide (y ∈ rest))
            = (done ++ [x]) ++ rest.filter (fun y => decide (y ∈ K)) := by
          rw [filter_insertBefore _ _ _ _ (by simp [hxrest])
            (fun bk hbk => by
              have hfind := List.find?_some hbk
              simp only [decide_eq_true_eq] at hfind
              simp [hfind])]
          have hstep1 : cur.filter (fun y => decide (y ∈ K) || !decide (y ∈ rest))
              = cur.filter (fun y => decide (y ∈ K) || !decide (y ∈ x :: rest)) := by
            apply List.filter_congr
            intro y hy
            exact hagree y hy (fun he => hxcur (he ▸ hy))
          rw [hstep1, hfilt, List.filter_cons_of_neg (by simp [hxK, hxrest])]
          rw [find?_eq_head?_filter]
          exact insertBefore_skeleton done _ x
            (fun y hy => hrestdone y (List.mem_of_mem_filter hy))
        have hres := ih (done ++ [x]) _ hnew' hnd' hsub' hfilt'
        rw [hres, List.append_assoc, List.singleton_append]

theorem applyOps_append {α : Type} [DecidableEq α] (l : List α) (a b : List (DiffOp α)) :
    applyOps l (a ++ b) = applyOps (applyOps l a) b := by
  simp [applyOps, List.foldl_append]

theorem diffOps_roundtrip {α : Type} [DecidableEq α] (old new : List α)
    (h1 : old.Nodup) (h2 : new.Nodup) :
    applyOps old (diffOps old new) = new := by
  have hK : ∀ x ∈ keptKeys old new, x ∈ old :=
    fun x hx => keptGo_subset_old old new none x hx
  have hKnew : List.Sublist (keptKeys old new) new := keptGo_sublist_new old new none
  have hKold : List.Sublist (keptKeys old new) old := keptGo_sublist_old old new none
  rw [diffOps, applyOps_append]
  have hrem : applyOps old ((old.filter (fun k => !decide (k ∈ new))).map DiffOp.removed)
      = old.filter (fun x => decide (x ∈ new)) := by
    rw [applyOps_removals old h1 _]
    apply List.filter_congr
    intro x _
    simp
  rw [hrem]
  have hC : (old.filter (fun x => decide (x ∈ new))).filter
        (fun y => decide (y ∈ keptKeys old new) || !decide (y ∈ new))
      = keptKeys old new := by
    rw [List.filter_filter]
    have hcg : old.filter (fun a =>
          (decide (a ∈ keptKeys old new) || !decide (a ∈ new)) && decide (a ∈ new))
        = old.filter (fun a => decide (a ∈ keptKeys old new)) := by
      apply List.filter_congr
      intro x _
      by_cases hxK : x ∈ keptKeys old new
      · have hxn : x ∈ new := hKnew.subset hxK
        simp [hxK, hxn]
      · by_cases hxn : x ∈ new <;> simp [hxK, hxn]
    rw [hcg]
    exact sublist_filter_mem_eq hKold h1
  have hfilt : (old.filter (fun x => decide (x ∈ new))).filter
        (fun y => decide (y ∈ keptKeys old new) || !decide (y ∈ new))
      = [] ++ new.filter (fun y => decide (y ∈ keptKeys old new)) := by
    rw [hC, List.nil_append]
    exact (sublist_filter_mem_eq hKnew h2).symm
  have hres := walk_apply old (keptKeys old new) hK new []
    (old.filter (fun x => decide (x ∈ new)))
    (by simpa using h2)
    (h1.filter _)
    (fun x hx => Or.inl (List.mem_of_mem_filter hx))
    hfilt
  rw [hres]
  rfl

/-- C4: for any two snapshots A and B whose keys are unique within each
snapshot, applying the edit script produced by diffing keys(A) against
keys(B) — the `removed`, `addedBefore` and `movedBefore` operations, in
their emission order — to the key sequence keys(A) yields exactly the key
sequence keys(B). -/
theorem C4_diff_roundtrip {K V : Type} [DecidableEq K] [DecidableEq V]
    (A B : List (SeqEntry K V))
    (h1 : (A.map SeqEntry.key).Nodup) (h2 : (B.map SeqEntry.key).Nodup) :
    applyOps (A.map SeqEntry.key) (diffOps (A.map SeqEntry.key) (B.map SeqEntry.key))
      = B.map SeqEntry.key :=
  diffOps_roundtrip (A.map SeqEntry.key) (B.map SeqEntry.key) h1 h2

/-- Witness for C4: diffing keys `[1, 2, 3]` against `[3, 2, 1, 4]` and
applying the script reproduces the new key order. -/
theorem C4_diff_roundtrip_witness :
    (([⟨MKey.given 1, ⟨some 1, 10⟩⟩, ⟨MKey.given 2, ⟨some 2, 20⟩⟩,
       ⟨MKey.given 3, ⟨some 3, 30⟩⟩] : List (SeqEntry Nat Nat)).map SeqEntry.key).Nodup ∧
    (([⟨MKey.given 3, ⟨some 3, 31⟩⟩, ⟨MKey.given 2, ⟨some 2, 21⟩⟩,
       ⟨MKey.given 1, ⟨some 1, 11⟩⟩, ⟨MKey.given 4, ⟨some 4, 40⟩⟩] :
        List (SeqEntry Nat Nat)).map SeqEntry.key).Nodup ∧
    applyOps (([⟨MKey.given 1, ⟨some 1, 10⟩⟩, ⟨MKey.given 2, ⟨some 2, 20⟩⟩,
       ⟨MKey.given 3, ⟨some 3, 30⟩⟩] : List (SeqEntry Nat Nat)).map SeqEntry.key)
      (diffOps (([⟨MKey.given 1, ⟨some 1, 10⟩⟩, ⟨MKey.given 2, ⟨some 2, 20⟩⟩,
         ⟨MKey.given 3, ⟨some 3, 30⟩⟩] : List (SeqEntry Nat Nat)).map SeqEntry.key)
        (([⟨MKey.given 3, ⟨some 3, 31⟩⟩, ⟨MKey.given 2, ⟨some 2, 21⟩⟩,
           ⟨MKey.given 1, ⟨some 1, 11⟩⟩, ⟨MKey.given 4, ⟨some 4, 40⟩⟩] :
            List (SeqEntry Nat Nat)).map SeqEntry.key))
      = ([⟨MKey.given 3, ⟨some 3, 31⟩⟩, ⟨MKey.given 2, ⟨some 2, 21⟩⟩,
          ⟨MKey.given 1, ⟨some 1, 11⟩⟩, ⟨MKey.given 4, ⟨some 4, 40⟩⟩] :
           List (SeqEntry Nat Nat)).map SeqEntry.key :=
  ⟨by decide, by decide,
    C4_diff_roundtrip
      [⟨MKey.given 1, ⟨some 1, 10⟩⟩, ⟨MKey.given 2, ⟨some 2, 20⟩⟩,
       ⟨MKey.given 3, ⟨some 3, 30⟩⟩]
      [⟨MKey.given 3, ⟨some 3, 31⟩⟩, ⟨MKey.given 2, ⟨some 2, 21⟩⟩,
       ⟨MKey.given 1, ⟨some 1, 11⟩⟩, ⟨MKey.given 4, ⟨some 4, 40⟩⟩]
      (by decide) (by decide)⟩
